import Mathlib

/-!
Verification of the streaming dispatch engine of the jodyhash command-line
utility (`src/utility.c`).  The hash primitives `jody_block_hash` and
`jody_rolling_block_hash` live outside the visible source, so every
dispatcher definition below is parametrised by a primitive of type
`Prim`: a function from a byte buffer and a seed to an optional digest
(`none` models a nonzero return of the C function).  Bytes are modelled
as `Nat`, streams as explicit lists of read events carrying the data a
`fread`/`fgets` call returned together with the `ferror`/`feof` flags
observed after that call.
-/

/-- A hash primitive: `jody_block_hash(data, &hash, count)` updates the
digest from `seed` to some new value, or fails (nonzero return). -/
abbrev Prim := List Nat → Nat → Option Nat

/-- A primitive built from a total hash function: never fails. -/
def pureHash (f : List Nat → Nat → Nat) : Prim := fun data seed => some (f data seed)

/-- Modelled from the spec: the Hash Primitive of section 6 is absent from
`src/` (`jody_hash.c` is not part of the visible source), so this is one
concrete primitive faithful to the spec's contract: it is pure and
deterministic, it is defined for length 0, and folding successive chunks
through the seed equals hashing the concatenation (proved in
`specHash_rolling`).  Digests are 64-bit, reduced mod 2^64. -/
def specHash (data : List Nat) (seed : Nat) : Nat :=
  data.foldl (fun h b => (h * 257 + b) % 18446744073709551616) seed

/-- A second total hash function used to instantiate witnesses. -/
def sumHash (data : List Nat) (seed : Nat) : Nat := seed + data.sum

/-- One record written to the primary output stream. -/
inductive OutRec where
  /-- `PRINTHASH(hash); printf("\n")`: a bare digest line. -/
  | bare (digest : Nat)
  /-- `PRINTHASH(hash); printf(" *%s\n", name)` (star) or `" %s\n"`. -/
  | named (digest : Nat) (star : Bool) (name : String)
  /-- Line-with-echo: digest, space, quoted line text. -/
  | echo (digest : Nat) (text : List Nat)
  /-- SubBlock mode's final `printf("\n")`: an empty line. -/
  | blank
  deriving DecidableEq

/-- Result of one `fread(blk, 1, BSIZE, fp)` call: the bytes returned and
the stream's `ferror`/`feof` indicators right after the call. -/
structure ReadEv where
  data : List Nat
  err : Bool
  eof : Bool
  deriving DecidableEq

/-- Result of one successful `fgets` call in line mode: the characters
written to the buffer (before the terminating NUL) and the `ferror`
indicator right after the call. -/
structure LineEv where
  data : List Nat
  err : Bool
  deriving DecidableEq

/-- `strlen` on the buffer just filled by `fgets`: length up to the first
NUL byte. -/
def cstrlen (l : List Nat) : Nat := (l.takeWhile (fun b => b != 0)).length

/-- One iteration of the `-l`/`-L` loop body on a line the buffer holds
(the part between `i = strlen(...)` and the hash call, lines 227-233 of
`utility.c`): `none` when the line is skipped, otherwise the pair of the
byte string passed to `jody_block_hash` (length `i - 1`, with a CR at
position `i - 2` overwritten by NUL) and the C string later echoed. -/
def lineProc (l : List Nat) : Option (List Nat × List Nat) :=
  let i := cstrlen l
  if i < 2 ∨ l.headD 0 = 10 then none
  else if l.getD (i - 2) 0 = 13 then some (l.take (i - 2) ++ [0], l.take (i - 2))
  else some (l.take (i - 1), l.take (i - 1))

/-- The record printed for one hashed line: `-L` echoes the text. -/
def lineRec (mode : Nat) (h : Nat) (text : List Nat) : OutRec :=
  if mode = 3 then OutRec.echo h text else OutRec.bare h

/-- The `-l`/`-L` loop of `utility.c` lines 220-251, over the sequence of
`fgets` results (the loop exits when `fgets` returns NULL, i.e. when the
event list is exhausted — note that an error that makes `fgets` itself
return NULL leaves the loop silently).  Returns the output records, the
diagnostic lines, and the `read_err` flag. -/
def lineLoop (H : Prim) (mode : Nat) (name : String) :
    List LineEv → List OutRec × List String × Bool
  | [] => ([], [], false)
  | ev :: rest =>
    if ev.err then ([], ["error reading file: " ++ name], true)
    else
      match lineProc ev.data with
      | none => lineLoop H mode name rest
      | some (content, text) =>
        match H content 0 with
        | none => ([], ["error hashing file: " ++ name], true)
        | some h =>
          let r := lineLoop H mode name rest
          (lineRec mode h text :: r.1, r.2.1, r.2.2)

/-- Number of characters one `fgets(blk, 32768, fp)` call consumes from
the remaining input: through the first newline, capped at 32767. -/
def firstLineLen (l : List Nat) : Nat := min (l.findIdx (fun b => b == 10) + 1) 32767

/-- Fuelled splitting of an input byte stream into successive `fgets`
results. -/
def fgetsSplitF : Nat → List Nat → List (List Nat)
  | _, [] => []
  | 0, _ :: _ => []
  | fuel + 1, b :: bs =>
    (b :: bs).take (firstLineLen (b :: bs)) ::
      fgetsSplitF fuel ((b :: bs).drop (firstLineLen (b :: bs)))

/-- The sequence of strings `fgets` yields on a given input stream. -/
def fgetsSplit (l : List Nat) : List (List Nat) := fgetsSplitF l.length l

/-- Line mode run on a raw error-free input stream. -/
def runLineInput (H : Prim) (mode : Nat) (name : String) (input : List Nat) :
    List OutRec × List String × Bool :=
  lineLoop H mode name ((fgetsSplit input).map (fun l => ⟨l, false⟩))

/-- Fuelled partition of a list into consecutive chunks of `n` elements
(the last chunk may be shorter). -/
def chunksOfF {α : Type} : Nat → Nat → List α → List (List α)
  | _, _, [] => []
  | 0, _, _ :: _ => []
  | fuel + 1, n, b :: bs =>
    (b :: bs).take n :: chunksOfF fuel n ((b :: bs).drop n)

/-- Partition of a list into consecutive chunks of `n` elements. -/
def chunksOf {α : Type} (n : Nat) (l : List α) : List (List α) :=
  chunksOfF l.length n l

/-- Fuelled inner sub-block loop of SubBlock mode (`utility.c` lines
267-280): hash each 4096-byte slice of the chunk with the digest reset to
zero, emit immediately; a hash failure reports
`error hashing file: <name>` and abandons the rest of the chunk. -/
def subBlockLoopF (H : Prim) (name : String) :
    Nat → List Nat → List OutRec × List String × Bool
  | _, [] => ([], [], false)
  | 0, _ :: _ => ([], [], false)
  | fuel + 1, b :: bs =>
    match H ((b :: bs).take 4096) 0 with
    | none => ([], ["error hashing file: " ++ name], true)
    | some h =>
      let r := subBlockLoopF H name fuel ((b :: bs).drop 4096)
      (OutRec.bare h :: r.1, r.2.1, r.2.2)

/-- SubBlock processing of one chunk returned by `fread`. -/
def subBlockLoop (H : Prim) (name : String) (chunk : List Nat) :
    List OutRec × List String × Bool :=
  subBlockLoopF H name chunk.length chunk

/-- The diagnostic line printed before every hash call of the
non-benchmarked fread loop (`utility.c` line 295). -/
def rollingLine (n : Nat) : String :=
  "doing a rolling hash of " ++ toString n ++ " bytes"

/-- The `fread` loop of `utility.c` lines 253-306 (modes other than
`-l`/`-L`), returning the final digest variable, the output records, the
diagnostic lines, and the `read_err` flag.  Faithful points: the loop
exits as soon as `fread` returns 0 bytes, before `ferror` is consulted;
a detected `ferror` prints only the bare name (the `ERR` macro); in
SubBlock mode a hash failure does not leave the outer loop; in the other
modes `jody_rolling_block_hash` is used exactly when `outmode == 6`, and
the digest variable is the seed carried from chunk to chunk. -/
def freadLoop (Hb Hr : Prim) (mode : Nat) (name : String) :
    List ReadEv → Nat → Nat × List OutRec × List String × Bool
  | [], h => (h, [], [], false)
  | ev :: rest, h =>
    if ev.data = [] then (h, [], [], false)
    else if ev.err then (h, [], [name], true)
    else if mode = 5 then
      let s := subBlockLoop Hb name ev.data
      if ev.eof then (h, s.1, s.2.1, s.2.2)
      else
        let r := freadLoop Hb Hr mode name rest h
        (r.1, s.1 ++ r.2.1, s.2.1 ++ r.2.2.1, s.2.2 || r.2.2.2)
    else
      match (if mode = 6 then Hr else Hb) ev.data h with
      | none =>
        (h, [], [rollingLine ev.data.length, "error hashing file: " ++ name], true)
      | some h2 =>
        if ev.eof then (h2, [], [rollingLine ev.data.length], false)
        else
          let r := freadLoop Hb Hr mode name rest h2
          (r.1, r.2.1, rollingLine ev.data.length :: r.2.2.1, r.2.2.2)

/-- Processing of one opened input in the non-line modes (`utility.c`
lines 253-332): run the fread loop from digest 0; on `read_err` skip all
final output; otherwise print the mode's final record (`-s`/`-b` star
style, `-n` name style, SubBlock's bare empty line, else the bare
digest). -/
def runInput (Hb Hr : Prim) (mode : Nat) (name : String) (t : List ReadEv) :
    List OutRec × List String × Bool :=
  let r := freadLoop Hb Hr mode name t 0
  if r.2.2.2 then (r.2.1, r.2.2.1, true)
  else
    let fin :=
      if mode = 1 then OutRec.named r.1 true name
      else if mode = 4 then OutRec.named r.1 false name
      else if mode = 5 then OutRec.blank
      else OutRec.bare r.1
    (r.2.1 ++ [fin], r.2.2.1, false)

/-- Result of `fopen` on one command-line argument. -/
inductive OpenRes where
  | fail
  | ok (t : List ReadEv)
  deriving DecidableEq

/-- One command-line input argument: its display name and open result. -/
structure InputArg where
  name : String
  res : OpenRes
  deriving DecidableEq

/-- The main argument loop of `utility.c` lines 192-337 for the non-line
modes: an unopenable input reports `error: cannot open: <name>` and sets
the failure flag; an opened input is processed by `runInput` and its
failure flag is ORed into the run's sticky `error` variable. -/
def runMain (Hb Hr : Prim) (mode : Nat) :
    List InputArg → List OutRec × List String × Bool
  | [] => ([], [], false)
  | inp :: rest =>
    match inp.res with
    | OpenRes.fail =>
      let r := runMain Hb Hr mode rest
      (r.1, ("error: cannot open: " ++ inp.name) :: r.2.1, true)
    | OpenRes.ok t =>
      let r1 := runInput Hb Hr mode inp.name t
      let r2 := runMain Hb Hr mode rest
      (r1.1 ++ r2.1, r1.2.1 ++ r2.2.1, r1.2.2 || r2.2.2)

/-- `exit(error)`: 0 on success, 1 (`EXIT_FAILURE`) otherwise. -/
def exitCode (failed : Bool) : Nat := if failed then 1 else 0

/-- A clean read event: bytes delivered, no fault, not at end of file. -/
def cleanEv (c : List Nat) : ReadEv := ⟨c, false, false⟩

/-- The fault-free read trace of a file: `fread` hands out full 32768
byte chunks, then the remainder. -/
def fileTrace (file : List Nat) : List ReadEv :=
  (chunksOf 32768 file).map cleanEv

/-- Folding a total hash function over successive chunks, each call
seeded with the previous digest. -/
def chunkFold (f : List Nat → Nat → Nat) (cs : List (List Nat)) (seed : Nat) : Nat :=
  cs.foldl (fun h c => f c h) seed

/-- A read trace on which the program's `ferror` check fires: scanning
the events the loop consumes, some read that returned at least one byte
has the error flag set. -/
def detects : List ReadEv → Bool
  | [] => false
  | ev :: rest =>
    if ev.data = [] then false
    else if ev.err then true
    else if ev.eof then false
    else detects rest

/-- An input argument the run handles without a detected failure. -/
def inputOk : InputArg → Bool
  | ⟨_, OpenRes.fail⟩ => false
  | ⟨_, OpenRes.ok t⟩ => !(detects t)

/-! ### Library lemmas about the fuelled chunk partition -/

theorem chunksOfF_congr {α : Type} (n : Nat) (hn : 1 ≤ n) :
    ∀ (f1 f2 : Nat) (l : List α), l.length ≤ f1 → l.length ≤ f2 →
      chunksOfF f1 n l = chunksOfF f2 n l := by
  intro f1
  induction f1 with
  | zero =>
    intro f2 l h1 h2
    have hl : l = [] := List.eq_nil_of_length_eq_zero (Nat.le_zero.mp h1)
    subst hl
    cases f2 <;> rfl
  | succ f ih =>
    intro f2 l h1 h2
    cases l with
    | nil => cases f2 <;> rfl
    | cons b bs =>
      cases f2 with
      | zero => simp at h2
      | succ f2 =>
        simp only [chunksOfF]
        congr 1
        apply ih
        · rw [List.length_drop]
          simp only [List.length_cons] at h1 ⊢
          omega
        · rw [List.length_drop]
          simp only [List.length_cons] at h2 ⊢
          omega

theorem chunksOf_nil {α : Type} (n : Nat) : chunksOf n ([] : List α) = [] := rfl

theorem chunksOf_cons {α : Type} (n : Nat) (hn : 1 ≤ n) (l : List α) (hl : l ≠ []) :
    chunksOf n l = l.take n :: chunksOf n (l.drop n) := by
  cases l with
  | nil => exact absurd rfl hl
  | cons b bs =>
    show chunksOfF (bs.length + 1) n (b :: bs) = _
    simp only [chunksOfF]
    congr 1
    apply chunksOfF_congr n hn
    · rw [List.length_drop]; simp only [List.length_cons]; omega
    · exact Nat.le_refl _

theorem chunksOf_ne_nil {α : Type} (n : Nat) (hn : 1 ≤ n) :
    ∀ (fuel : Nat) (l : List α), l.length ≤ fuel → ∀ c ∈ chunksOf n l, c ≠ [] := by
  intro fuel
  induction fuel with
  | zero =>
    intro l hl c hc
    have : l = [] := List.eq_nil_of_length_eq_zero (Nat.le_zero.mp hl)
    subst this
    simp [chunksOf_nil] at hc
  | succ f ih =>
    intro l hl c hc
    cases l with
    | nil => simp [chunksOf_nil] at hc
    | cons b bs =>
      rw [chunksOf_cons n hn _ (by simp)] at hc
      rcases List.mem_cons.mp hc with h | h
      · subst h
        cases n with
        | zero => omega
        | succ m => simp
      · apply ih _ _ _ h
        rw [List.length_drop]
        simp only [List.length_cons] at hl ⊢
        omega

theorem chunksOf_take_drop {α : Type} (m : Nat) (hm : 1 ≤ m) :
    ∀ (q : Nat) (l : List α),
      chunksOf m l = chunksOf m (l.take (m * q)) ++ chunksOf m (l.drop (m * q)) := by
  intro q
  induction q with
  | zero => intro l; simp [chunksOf_nil]
  | succ q ih =>
    intro l
    cases l with
    | nil => simp [chunksOf_nil]
    | cons b bs =>
      have hmq : m * (q + 1) = m + m * q := by ring
      have hne : (b :: bs) ≠ ([] : List α) := by simp
      have htne : ((b :: bs).take (m * (q + 1))) ≠ ([] : List α) := by
        cases m with
        | zero => omega
        | succ k => simp [hmq, List.take_cons]
      rw [chunksOf_cons m hm _ hne, chunksOf_cons m hm _ htne]
      have h1 : ((b :: bs).take (m * (q + 1))).take m = (b :: bs).take m := by
        rw [List.take_take]
        congr 1
        omega
      have h2 : ((b :: bs).take (m * (q + 1))).drop m = ((b :: bs).drop m).take (m * q) := by
        rw [hmq, List.drop_take]
        congr 1
        omega
      have h3 : (b :: bs).drop (m * (q + 1)) = ((b :: bs).drop m).drop (m * q) := by
        rw [List.drop_drop]
        congr 1
      rw [h1, h2, h3, List.cons_append]
      congr 1
      exact ih ((b :: bs).drop m)

theorem chunksOf_flatMap {α : Type} (m q : Nat) (hm : 1 ≤ m) (hq : 1 ≤ q) :
    ∀ (fuel : Nat) (l : List α), l.length ≤ fuel →
      (chunksOf (m * q) l).flatMap (chunksOf m) = chunksOf m l := by
  intro fuel
  induction fuel with
  | zero =>
    intro l hl
    have : l = [] := List.eq_nil_of_length_eq_zero (Nat.le_zero.mp hl)
    subst this
    simp [chunksOf_nil]
  | succ f ih =>
    intro l hl
    cases l with
    | nil => simp [chunksOf_nil]
    | cons b bs =>
      have hmq : 1 ≤ m * q := Nat.one_le_iff_ne_zero.mpr (by positivity)
      rw [chunksOf_cons (m * q) hmq _ (by simp), List.flatMap_cons]
      rw [ih ((b :: bs).drop (m * q)) (by rw [List.length_drop]; simp only [List.length_cons] at hl ⊢; omega)]
      rw [chunksOf_take_drop m hm q (b :: bs)]

theorem chunksOf_length_exact {α : Type} (n : Nat) (hn : 1 ≤ n) :
    ∀ (k : Nat) (l : List α), l.length = n * k → (chunksOf n l).length = k := by
  intro k
  induction k with
  | zero =>
    intro l hl
    have : l = [] := List.eq_nil_of_length_eq_zero (by omega)
    subst this
    simp [chunksOf_nil]
  | succ k ih =>
    intro l hl
    have hne : l ≠ [] := by
      intro h
      subst h
      simp at hl
      omega
    rw [chunksOf_cons n hn l hne, List.length_cons]
    rw [ih (l.drop n) (by rw [List.length_drop, hl]; ring_nf; omega)]

theorem chunksOf_length_rem {α : Type} (n : Nat) (hn : 1 ≤ n) :
    ∀ (k : Nat) (l : List α) (r : Nat), l.length = n * k + r → 0 < r → r ≤ n →
      (chunksOf n l).length = k + 1 := by
  intro k
  induction k with
  | zero =>
    intro l r hl hr0 hrn
    have hne : l ≠ [] := by
      intro h
      subst h
      simp at hl
      omega
    rw [chunksOf_cons n hn l hne, List.length_cons]
    have : (l.drop n) = [] := by
      apply List.eq_nil_of_length_eq_zero
      rw [List.length_drop]
      omega
    rw [this]
    simp [chunksOf_nil]
  | succ k ih =>
    intro l r hl hr0 hrn
    have hne : l ≠ [] := by
      intro h
      subst h
      simp at hl
      omega
    rw [chunksOf_cons n hn l hne, List.length_cons]
    rw [ih (l.drop n) r (by rw [List.length_drop, hl]; ring_nf; omega) hr0 hrn]

theorem chunksOf_getD {α : Type} (n : Nat) (hn : 1 ≤ n) :
    ∀ (j : Nat) (l : List α), j < (chunksOf n l).length →
      (chunksOf n l).getD j [] = (l.drop (n * j)).take n := by
  intro j
  induction j with
  | zero =>
    intro l hj
    have hne : l ≠ [] := by
      intro h
      subst h
      simp [chunksOf_nil] at hj
    rw [chunksOf_cons n hn l hne]
    simp
  | succ j ih =>
    intro l hj
    have hne : l ≠ [] := by
      intro h
      subst h
      simp [chunksOf_nil] at hj
    rw [chunksOf_cons n hn l hne] at hj ⊢
    rw [List.getD_cons_succ]
    rw [List.length_cons] at hj
    rw [ih (l.drop n) (by omega)]
    rw [List.drop_drop]
    congr 2
    ring

/-! ### Characterisation of the loops on fault-free traces -/

theorem subBlockLoopF_pure (f : List Nat → Nat → Nat) (nm : String) :
    ∀ (fuel : Nat) (chunk : List Nat), chunk.length ≤ fuel →
      subBlockLoopF (pureHash f) nm fuel chunk =
        ((chunksOf 4096 chunk).map (fun sb => OutRec.bare (f sb 0)), [], false) := by
  intro fuel
  induction fuel with
  | zero =>
    intro chunk hc
    have : chunk = [] := List.eq_nil_of_length_eq_zero (by omega)
    subst this
    simp [subBlockLoopF, chunksOf_nil]
  | succ fl ih =>
    intro chunk hc
    cases chunk with
    | nil => simp [subBlockLoopF, chunksOf_nil]
    | cons b bs =>
      rw [chunksOf_cons 4096 (by omega) _ (by simp)]
      simp only [subBlockLoopF, pureHash]
      rw [ih ((b :: bs).drop 4096)
        (by rw [List.length_drop]; simp only [List.length_cons] at hc ⊢; omega)]
      simp

theorem subBlockLoop_pure (f : List Nat → Nat → Nat) (nm : String) (chunk : List Nat) :
    subBlockLoop (pureHash f) nm chunk =
      ((chunksOf 4096 chunk).map (fun sb => OutRec.bare (f sb 0)), [], false) :=
  subBlockLoopF_pure f nm chunk.length chunk (Nat.le_refl _)

theorem freadLoop_clean (f g : List Nat → Nat → Nat) (m : Nat) (hm : m ≠ 5) (nm : String) :
    ∀ (cs : List (List Nat)) (h : Nat), (∀ c ∈ cs, c ≠ []) →
      freadLoop (pureHash f) (pureHash g) m nm (cs.map cleanEv) h =
        (chunkFold (if m = 6 then g else f) cs h, [],
          cs.map (fun c => rollingLine c.length), false) := by
  intro cs
  induction cs with
  | nil => intro h _; simp [freadLoop, chunkFold]
  | cons c cs ih =>
    intro h hne
    have hc : c ≠ [] := hne c (by simp)
    simp only [List.map_cons, freadLoop, cleanEv]
    rw [if_neg hc, if_neg (by simp)]
    rw [if_neg hm]
    have hstep : (if m = 6 then pureHash g else pureHash f) c h =
        some ((if m = 6 then g else f) c h) := by
      by_cases h6 : m = 6 <;> simp [h6, pureHash]
    rw [hstep]
    simp only [Bool.false_eq_true, if_false, List.append_eq]
    rw [ih ((if m = 6 then g else f) c h) (fun x hx => hne x (by simp [hx]))]
    simp [chunkFold]

theorem freadLoop_sub_clean (f g : List Nat → Nat → Nat) (nm : String) :
    ∀ (cs : List (List Nat)) (h : Nat), (∀ c ∈ cs, c ≠ []) →
      freadLoop (pureHash f) (pureHash g) 5 nm (cs.map cleanEv) h =
        (h, cs.flatMap (fun c => (chunksOf 4096 c).map (fun sb => OutRec.bare (f sb 0))),
          [], false) := by
  intro cs
  induction cs with
  | nil => intro h _; simp [freadLoop]
  | cons c cs ih =>
    intro h hne
    have hc : c ≠ [] := hne c (by simp)
    simp only [List.map_cons, freadLoop, cleanEv]
    rw [if_neg hc, if_neg (by simp), if_pos trivial]
    rw [subBlockLoop_pure]
    simp only [Bool.false_eq_true, if_false]
    rw [ih h (fun x hx => hne x (by simp [hx]))]
    simp [List.flatMap_cons]

theorem freadLoop_detects (f g : List Nat → Nat → Nat) (m : Nat) (nm : String) :
    ∀ (t : List ReadEv) (h : Nat),
      (freadLoop (pureHash f) (pureHash g) m nm t h).2.2.2 = detects t := by
  intro t
  induction t with
  | nil => intro h; rfl
  | cons ev rest ih =>
    intro h
    simp only [freadLoop, detects]
    by_cases hd : ev.data = []
    · rw [if_pos hd, if_pos hd]
    · rw [if_neg hd, if_neg hd]
      by_cases he : ev.err = true
      · rw [if_pos he, if_pos he]
      · rw [if_neg he, if_neg he]
        by_cases h5 : m = 5
        · rw [if_pos h5]
          subst h5
          rw [subBlockLoop_pure]
          by_cases hf : ev.eof = true
          · rw [if_pos hf, if_pos hf]
          · rw [if_neg hf, if_neg hf]
            simp [ih]
        · rw [if_neg h5]
          have hstep : (if m = 6 then pureHash g else pureHash f) ev.data h =
              some ((if m = 6 then g else f) ev.data h) := by
            by_cases h6 : m = 6 <;> simp [h6, pureHash]
          rw [hstep]
          by_cases hf : ev.eof = true <;> simp [hf, ih]

theorem runInput_flag (f g : List Nat → Nat → Nat) (m : Nat) (nm : String) (t : List ReadEv) :
    (runInput (pureHash f) (pureHash g) m nm t).2.2 = detects t := by
  simp only [runInput]
  rw [freadLoop_detects]
  by_cases h : detects t = true
  · rw [if_pos h, h]
  · rw [if_neg h]
    simp at h
    rw [h]

theorem runMain_flag (f g : List Nat → Nat → Nat) (m : Nat) :
    ∀ (inputs : List InputArg),
      (runMain (pureHash f) (pureHash g) m inputs).2.2 =
        inputs.any (fun i => !(inputOk i)) := by
  intro inputs
  induction inputs with
  | nil => rfl
  | cons inp rest ih =>
    cases inp with
    | mk nm res =>
      cases res with
      | fail => simp [runMain, inputOk]
      | ok t =>
        simp only [runMain, List.any_cons]
        rw [ih, runInput_flag]
        simp [inputOk]

/-! ### Lemmas about `fgets` splitting and line processing -/

theorem firstLineLen_pos (l : List Nat) : 1 ≤ firstLineLen l := by
  unfold firstLineLen
  omega

theorem fgetsSplitF_congr :
    ∀ (f1 f2 : Nat) (l : List Nat), l.length ≤ f1 → l.length ≤ f2 →
      fgetsSplitF f1 l = fgetsSplitF f2 l := by
  intro f1
  induction f1 with
  | zero =>
    intro f2 l h1 h2
    have hl : l = [] := List.eq_nil_of_length_eq_zero (Nat.le_zero.mp h1)
    subst hl
    cases f2 <;> rfl
  | succ f ih =>
    intro f2 l h1 h2
    cases l with
    | nil => cases f2 <;> rfl
    | cons b bs =>
      cases f2 with
      | zero => simp at h2
      | succ f2 =>
        simp only [fgetsSplitF]
        congr 1
        have hp := firstLineLen_pos (b :: bs)
        apply ih
        · rw [List.length_drop]
          simp only [List.length_cons] at h1 ⊢
          omega
        · rw [List.length_drop]
          simp only [List.length_cons] at h2 ⊢
          omega

theorem fgetsSplit_cons (l : List Nat) (hl : l ≠ []) :
    fgetsSplit l = l.take (firstLineLen l) :: fgetsSplit (l.drop (firstLineLen l)) := by
  cases l with
  | nil => exact absurd rfl hl
  | cons b bs =>
    show fgetsSplitF (bs.length + 1) (b :: bs) = _
    simp only [fgetsSplitF]
    congr 1
    apply fgetsSplitF_congr
    · rw [List.length_drop]
      have := firstLineLen_pos (b :: bs)
      simp only [List.length_cons]
      omega
    · exact Nat.le_refl _

theorem findIdx10_append (T : List Nat) (h : 10 ∉ T) (rest : List Nat) :
    (T ++ 10 :: rest).findIdx (fun b => b == 10) = T.length := by
  induction T with
  | nil => simp [List.findIdx_cons]
  | cons b bs ih =>
    have hb : b ≠ 10 := by
      intro hb
      exact h (by simp [hb])
    have hbs : 10 ∉ bs := fun hx => h (by simp [hx])
    simp only [List.cons_append, List.findIdx_cons]
    have : (b == 10) = false := by simp [hb]
    rw [this]
    simp [ih hbs]

theorem findIdx10_not_mem (T : List Nat) (h : 10 ∉ T) :
    T.findIdx (fun b => b == 10) = T.length := by
  induction T with
  | nil => rfl
  | cons b bs ih =>
    have hb : b ≠ 10 := by
      intro hb
      exact h (by simp [hb])
    have hbs : 10 ∉ bs := fun hx => h (by simp [hx])
    simp only [List.findIdx_cons]
    have : (b == 10) = false := by simp [hb]
    rw [this]
    simp [ih hbs]

theorem fgetsSplit_cons_term (T : List Nat) (h10 : 10 ∉ T)
    (hlen : T.length + 1 ≤ 32767) (rest : List Nat) :
    fgetsSplit (T ++ 10 :: rest) = (T ++ [10]) :: fgetsSplit rest := by
  have hne : T ++ 10 :: rest ≠ [] := by simp
  have hfl : firstLineLen (T ++ 10 :: rest) = T.length + 1 := by
    unfold firstLineLen
    rw [findIdx10_append T h10 rest]
    omega
  rw [fgetsSplit_cons _ hne, hfl]
  congr 1
  · rw [List.take_append_eq_append_take]
    rw [List.take_of_length_le (by omega)]
    congr 1
    simp [List.take_cons]
  · rw [List.drop_append_eq_append_drop]
    rw [List.drop_eq_nil_of_le (by omega)]
    simp

theorem fgetsSplit_one_term (T : List Nat) (h10 : 10 ∉ T)
    (hlen : T.length + 1 ≤ 32767) :
    fgetsSplit (T ++ [10]) = [T ++ [10]] := by
  have := fgetsSplit_cons_term T h10 hlen []
  simpa using this

theorem fgetsSplit_unterm (T : List Nat) (hT : T ≠ []) (h10 : 10 ∉ T)
    (hlen : T.length ≤ 32766) :
    fgetsSplit T = [T] := by
  have hfl : firstLineLen T = T.length + 1 := by
    unfold firstLineLen
    rw [findIdx10_not_mem T h10]
    omega
  rw [fgetsSplit_cons _ hT, hfl]
  rw [List.take_of_length_le (by omega), List.drop_eq_nil_of_le (by omega)]
  rfl

theorem cstrlen_no_nul (l : List Nat) (h : 0 ∉ l) : cstrlen l = l.length := by
  unfold cstrlen
  induction l with
  | nil => rfl
  | cons b bs ih =>
    have hb : b ≠ 0 := by
      intro hb
      exact h (by simp [hb])
    have hbs : 0 ∉ bs := fun hx => h (by simp [hx])
    rw [List.takeWhile_cons]
    have : (b != 0) = true := by simpa using hb
    rw [this]
    simp [ih hbs]

theorem specHash_rolling (c1 c2 : List Nat) (s : Nat) :
    specHash (c1 ++ c2) s = specHash c2 (specHash c1 s) := by
  simp [specHash, List.foldl_append]

theorem specHash_empty (s : Nat) : specHash [] s = s := rfl

theorem lineProc_crlf (T : List Nat) (h0 : 0 ∉ T) (h10 : 10 ∉ T) (hT : T ≠ []) :
    lineProc (T ++ [13, 10]) = some (T ++ [0], T) := by
  have hlen : cstrlen (T ++ [13, 10]) = T.length + 2 := by
    rw [cstrlen_no_nul]
    · simp
    · intro hx
      rcases List.mem_append.mp hx with h | h
      · exact h0 h
      · simp at h
  have hTpos : 1 ≤ T.length := by
    cases T with
    | nil => exact absurd rfl hT
    | cons a as => simp
  have hhead : (T ++ [13, 10]).headD 0 ≠ 10 := by
    cases T with
    | nil => exact absurd rfl hT
    | cons a as =>
      simp only [List.cons_append, List.headD_cons]
      intro ha
      exact h10 (by simp [ha])
  have hgetD : (T ++ [13, 10]).getD (T.length + 2 - 2) 0 = 13 := by
    simp only [Nat.add_sub_cancel]
    rw [List.getD_append_right _ _ _ _ (Nat.le_refl _)]
    simp
  unfold lineProc
  simp only [hlen]
  rw [if_neg (by push_neg; exact ⟨by omega, hhead⟩)]
  rw [if_pos hgetD]
  have htake : (T ++ [13, 10]).take (T.length + 2 - 2) = T := by
    simp only [Nat.add_sub_cancel]
    exact List.take_left ..
  rw [htake]

theorem lineProc_lf (T : List Nat) (h0 : 0 ∉ T) (h10 : 10 ∉ T) (h13 : 13 ∉ T)
    (hT : T ≠ []) :
    lineProc (T ++ [10]) = some (T, T) := by
  have hlen : cstrlen (T ++ [10]) = T.length + 1 := by
    rw [cstrlen_no_nul]
    · simp
    · intro hx
      rcases List.mem_append.mp hx with h | h
      · exact h0 h
      · simp at h
  have hTpos : 1 ≤ T.length := by
    cases T with
    | nil => exact absurd rfl hT
    | cons a as => simp
  have hhead : (T ++ [10]).headD 0 ≠ 10 := by
    cases T with
    | nil => exact absurd rfl hT
    | cons a as =>
      simp only [List.cons_append, List.headD_cons]
      intro ha
      exact h10 (by simp [ha])
  have hgetD : (T ++ [10]).getD (T.length + 1 - 2) 0 ≠ 13 := by
    have heq : T.length + 1 - 2 = T.length - 1 := by omega
    rw [heq]
    have hlt : T.length - 1 < T.length := by omega
    rw [List.getD_append _ _ _ _ hlt, List.getD_eq_getElem T 0 hlt]
    intro hx
    exact h13 (hx ▸ List.getElem_mem hlt)
  unfold lineProc
  simp only [hlen]
  rw [if_neg (by push_neg; exact ⟨by omega, hhead⟩)]
  rw [if_neg hgetD]
  have htake : (T ++ [10]).take (T.length + 1 - 1) = T := by
    simp only [Nat.add_sub_cancel]
    exact List.take_left ..
  rw [htake]

theorem lineProc_unterm (T : List Nat) (h0 : 0 ∉ T) (h10 : 10 ∉ T) (h13 : 13 ∉ T)
    (hT2 : 2 ≤ T.length) :
    lineProc T = some (T.take (T.length - 1), T.take (T.length - 1)) := by
  have hlen : cstrlen T = T.length := cstrlen_no_nul T h0
  have hhead : T.headD 0 ≠ 10 := by
    cases T with
    | nil => simp at hT2
    | cons a as =>
      simp only [List.headD_cons]
      intro ha
      exact h10 (by simp [ha])
  have hgetD : T.getD (T.length - 2) 0 ≠ 13 := by
    have hlt : T.length - 2 < T.length := by omega
    rw [List.getD_eq_getElem T 0 hlt]
    intro hx
    exact h13 (hx ▸ List.getElem_mem hlt)
  unfold lineProc
  simp only [hlen]
  rw [if_neg (by push_neg; exact ⟨by omega, hhead⟩)]
  rw [if_neg hgetD]

theorem lineProc_single (u : Nat) : lineProc [u] = none := by
  have hlen : cstrlen [u] < 2 := by
    have : cstrlen [u] ≤ 1 := ([u].takeWhile_sublist _).length_le
    omega
  unfold lineProc
  exact if_pos (Or.inl hlen)

theorem fgetsSplit_singleton (u : Nat) : fgetsSplit [u] = [[u]] := by
  have h1 : 1 ≤ firstLineLen [u] := firstLineLen_pos [u]
  show fgetsSplitF 1 [u] = [[u]]
  simp only [fgetsSplitF]
  rw [List.take_of_length_le (by simpa using h1), List.drop_eq_nil_of_le (by simpa using h1)]
  rfl

theorem runInput_clean (f g : List Nat → Nat → Nat) (m : Nat) (hm : m ≠ 5) (nm : String)
    (cs : List (List Nat)) (hne : ∀ c ∈ cs, c ≠ []) :
    runInput (pureHash f) (pureHash g) m nm (cs.map cleanEv) =
      ([if m = 1 then OutRec.named (chunkFold (if m = 6 then g else f) cs 0) true nm
        else if m = 4 then OutRec.named (chunkFold (if m = 6 then g else f) cs 0) false nm
        else OutRec.bare (chunkFold (if m = 6 then g else f) cs 0)],
       cs.map (fun c => rollingLine c.length), false) := by
  simp only [runInput]
  rw [freadLoop_clean f g m hm nm cs 0 hne]
  simp only [Bool.false_eq_true, if_false, List.nil_append]
  by_cases h1 : m = 1
  · simp [h1]
  · by_cases h4 : m = 4
    · simp [h4]
    · simp [h1, h4, hm]

theorem freadLoop_fault (f g : List Nat → Nat → Nat) (m : Nat) (hm5 : m ≠ 5) (nm : String)
    (d : List Nat) (hd : d ≠ []) (b : Bool) (rest : List ReadEv) :
    ∀ (cs : List (List Nat)) (h : Nat), (∀ c ∈ cs, c ≠ []) →
      freadLoop (pureHash f) (pureHash g) m nm
          (cs.map cleanEv ++ (⟨d, true, b⟩ : ReadEv) :: rest) h =
        (chunkFold (if m = 6 then g else f) cs h, [],
          (cs.map (fun c => rollingLine c.length)) ++ [nm], true) := by
  intro cs
  induction cs with
  | nil =>
    intro h _
    simp only [List.map_nil, List.nil_append, freadLoop]
    rw [if_neg hd]
    rfl
  | cons c cs ih =>
    intro h hne
    have hc : c ≠ [] := hne c (by simp)
    simp only [List.map_cons, List.cons_append, freadLoop, cleanEv]
    rw [if_neg hc, if_neg (by simp)]
    rw [if_neg hm5]
    have hstep : (if m = 6 then pureHash g else pureHash f) c h =
        some ((if m = 6 then g else f) c h) := by
      by_cases h6 : m = 6 <;> simp [h6, pureHash]
    rw [hstep]
    simp only [Bool.false_eq_true, if_false, List.append_eq]
    rw [ih ((if m = 6 then g else f) c h) (fun x hx => hne x (by simp [hx]))]
    simp [chunkFold]

theorem lineLoop_single (H : Prim) (m : Nat) (nm : String) (l : List Nat)
    (content text : List Nat) (hp : lineProc l = some (content, text)) (h : Nat)
    (hH : H content 0 = some h) :
    lineLoop H m nm [⟨l, false⟩] = ([lineRec m h text], [], false) := by
  simp only [lineLoop, Bool.false_eq_true, if_false, hp, hH]

theorem lineLoop_single_skip (H : Prim) (m : Nat) (nm : String) (l : List Nat)
    (hp : lineProc l = none) :
    lineLoop H m nm [⟨l, false⟩] = ([], [], false) := by
  simp only [lineLoop, Bool.false_eq_true, if_false, hp]

theorem runInput_subblock (f g : List Nat → Nat → Nat) (nm : String) (file : List Nat) :
    runInput (pureHash f) (pureHash g) 5 nm (fileTrace file) =
      (((chunksOf 4096 file).map (fun sb => OutRec.bare (f sb 0))) ++ [OutRec.blank],
        [], false) := by
  have hne : ∀ c ∈ chunksOf 32768 file, c ≠ [] :=
    chunksOf_ne_nil 32768 (by omega) file.length file (Nat.le_refl _)
  simp only [runInput, fileTrace]
  rw [freadLoop_sub_clean f g nm _ 0 hne]
  simp only [Bool.false_eq_true, if_false]
  have hmap : (chunksOf 32768 file).flatMap
      (fun c => (chunksOf 4096 c).map (fun sb => OutRec.bare (f sb 0))) =
      ((chunksOf 32768 file).flatMap (chunksOf 4096)).map (fun sb => OutRec.bare (f sb 0)) :=
    (List.map_flatMap _ _ _).symm
  have h48 : (32768 : Nat) = 4096 * 8 := by norm_num
  rw [hmap, h48,
    chunksOf_flatMap 4096 8 (by omega) (by omega) file.length file (Nat.le_refl _)]
  rfl

/-! ### The claims -/

/-- Claim C1 (amended): in Line mode and Line-with-echo mode, the logical
line `T` followed by CRLF is hashed as the `|T| + 1` bytes `T ++ [0x00]`
— the CR at position `i - 2` is overwritten with NUL but stays inside the
hashed length `i - 1` — while `T` followed by LF is hashed as the `|T|`
bytes of `T`; both emit one record whose digest applies the primitive to
those respective byte strings (so the two digests coincide exactly when
the primitive assigns equal digests to `T` and `T ++ [0x00]`, which the
spec's primitive contract does not guarantee). -/
theorem line_crlf_nul_padding (f : List Nat → Nat → Nat) (m : Nat)
    (hm : m = 2 ∨ m = 3) (nm : String) (T : List Nat) (h0 : 0 ∉ T) (h10 : 10 ∉ T)
    (h13 : 13 ∉ T) (hT : T ≠ []) (hlen : T.length + 2 ≤ 32767) :
    runLineInput (pureHash f) m nm (T ++ [13, 10]) =
      ([lineRec m (f (T ++ [0]) 0) T], [], false)
    ∧ runLineInput (pureHash f) m nm (T ++ [10]) =
      ([lineRec m (f T 0) T], [], false) := by
  constructor
  · unfold runLineInput
    have hsp : fgetsSplit (T ++ [13, 10]) = [T ++ [13, 10]] := by
      have hco : T ++ [13, 10] = (T ++ [13]) ++ [10] := by simp
      rw [hco]
      rw [fgetsSplit_one_term (T ++ [13]) ?hnm ?hln]
      case hnm =>
        intro hx
        rcases List.mem_append.mp hx with h | h
        · exact h10 h
        · simp at h
      case hln => simp; omega
    rw [hsp]
    simp only [List.map_cons, List.map_nil]
    exact lineLoop_single _ m nm _ _ _ (lineProc_crlf T h0 h10 hT) _ rfl
  · unfold runLineInput
    have hsp : fgetsSplit (T ++ [10]) = [T ++ [10]] := by
      rw [fgetsSplit_one_term T h10 (by omega)]
    rw [hsp]
    simp only [List.map_cons, List.map_nil]
    exact lineLoop_single _ m nm _ _ _ (lineProc_lf T h0 h10 h13 hT) _ rfl

/-- Claim C1 (counterexample): with the spec-contract-conforming primitive
`specHash`, the lines `"abc\r\n"` and `"abc\n"` do NOT yield the same
emitted digest in Line mode: the CRLF variant hashes `"abc\x00"` (4
bytes) while the LF variant hashes `"abc"` (3 bytes). -/
theorem line_crlf_lf_digests_differ :
    (runLineInput (pureHash specHash) 2 "-" [97, 98, 99, 13, 10]).1 ≠
      (runLineInput (pureHash specHash) 2 "-" [97, 98, 99, 10]).1 := by
  decide

/-- Claim C2 (code evaluated at the failing input): a line consisting
solely of `"\r\n"` is NOT skipped by the `i < 2 || *blk == '\n'` check
(`i = 2` and the first byte is CR): the CR at position 0 is overwritten
with NUL, the single byte `0x00` is hashed, and an output record IS
emitted — contradicting the claim that such a line produces no output. -/
theorem crlf_only_line_emits_record :
    runLineInput (pureHash specHash) 2 "-" [13, 10] = ([OutRec.bare 0], [], false) := by
  decide

/-- Claim C9: in Line mode and Line-with-echo mode, a final line without
a trailing newline still has its last byte removed before hashing (the
code hashes `i - 1` bytes after overwriting position `i - 1`): the
single-line input `T` is hashed as `T.take (|T| - 1)`; and a final
unterminated line of exactly one byte has `i = 1 < 2` and is skipped,
producing no output record. -/
theorem line_final_unterminated (f : List Nat → Nat → Nat) (m : Nat)
    (hm : m = 2 ∨ m = 3) (nm : String) (T : List Nat) (u : Nat) (h0 : 0 ∉ T)
    (h10 : 10 ∉ T) (h13 : 13 ∉ T) (hT2 : 2 ≤ T.length) (hlen : T.length ≤ 32766) :
    runLineInput (pureHash f) m nm T =
      ([lineRec m (f (T.take (T.length - 1)) 0) (T.take (T.length - 1))], [], false)
    ∧ runLineInput (pureHash f) m nm [u] = ([], [], false) := by
  constructor
  · unfold runLineInput
    have hT : T ≠ [] := by
      intro h
      subst h
      simp at hT2
    rw [fgetsSplit_unterm T hT h10 hlen]
    simp only [List.map_cons, List.map_nil]
    exact lineLoop_single _ m nm _ _ _ (lineProc_unterm T h0 h10 h13 hT2) _ rfl
  · unfold runLineInput
    rw [fgetsSplit_singleton u]
    simp only [List.map_cons, List.map_nil]
    exact lineLoop_single_skip _ m nm _ (lineProc_single u)

/-- Claim C3: in SubBlock mode the emitted records are exactly one bare
digest per consecutive 4096-byte sub-block of the whole file, in order,
each computed from seed 0 (the `hash = 0` reset before each sub-block),
followed by the final empty line the shared epilogue prints; a file of
exactly `4096 * k` bytes yields `k` digest records whose `j`-th record
covers the `j`-th 4096-byte region, and a file of `4096 * q + r` bytes
(`0 < r < 4096`) yields `q + 1` records, the last covering exactly the
final `r` bytes. -/
theorem subblock_partition (f g : List Nat → Nat → Nat) (nm : String)
    (file gile : List Nat) (k q r : Nat) (hk : file.length = 4096 * k)
    (hq : gile.length = 4096 * q + r) (hr0 : 0 < r) (hr1 : r < 4096) :
    runInput (pureHash f) (pureHash g) 5 nm (fileTrace file) =
      (((chunksOf 4096 file).map (fun sb => OutRec.bare (f sb 0))) ++ [OutRec.blank],
        [], false)
    ∧ (chunksOf 4096 file).length = k
    ∧ (∀ j, j < k → (chunksOf 4096 file).getD j [] = (file.drop (4096 * j)).take 4096)
    ∧ runInput (pureHash f) (pureHash g) 5 nm (fileTrace gile) =
      (((chunksOf 4096 gile).map (fun sb => OutRec.bare (f sb 0))) ++ [OutRec.blank],
        [], false)
    ∧ (chunksOf 4096 gile).length = q + 1
    ∧ (chunksOf 4096 gile).getD q [] = gile.drop (4096 * q)
    ∧ (gile.drop (4096 * q)).length = r := by
  refine ⟨runInput_subblock f g nm file, ?_, ?_, runInput_subblock f g nm gile, ?_, ?_, ?_⟩
  · exact chunksOf_length_exact 4096 (by omega) k file hk
  · intro j hj
    apply chunksOf_getD 4096 (by omega) j file
    rw [chunksOf_length_exact 4096 (by omega) k file hk]
    exact hj
  · exact chunksOf_length_rem 4096 (by omega) q gile r hq hr0 (by omega)
  · have hlen : (chunksOf 4096 gile).length = q + 1 :=
      chunksOf_length_rem 4096 (by omega) q gile r hq hr0 (by omega)
    rw [chunksOf_getD 4096 (by omega) q gile (by omega)]
    apply List.take_of_length_le
    rw [List.length_drop]
    omega
  · rw [List.length_drop]
    omega

/-- Claim C4 (amended): in the fread-based modes (Whole-file `0`,
BinaryStyle `1`, Per-name `4`, Rolling `6`), a ReadError that is detected
— `ferror` observed after a read that returned at least one byte — makes
the input emit no digest line at all, sets the run's failure status, and
processing continues with the next input argument (the run's primary
output is exactly that of the remaining inputs). -/
theorem read_error_detected_abandons (f g : List Nat → Nat → Nat) (m : Nat)
    (hm : m = 0 ∨ m = 1 ∨ m = 4 ∨ m = 6) (nm : String) (cs : List (List Nat))
    (hne : ∀ c ∈ cs, c ≠ []) (d : List Nat) (hd : d ≠ []) (b : Bool)
    (rest : List ReadEv) (more : List InputArg) :
    runInput (pureHash f) (pureHash g) m nm
        (cs.map cleanEv ++ (⟨d, true, b⟩ : ReadEv) :: rest) =
      ([], cs.map (fun c => rollingLine c.length) ++ [nm], true)
    ∧ (runMain (pureHash f) (pureHash g) m
        (⟨nm, OpenRes.ok (cs.map cleanEv ++ (⟨d, true, b⟩ : ReadEv) :: rest)⟩ :: more)).1 =
      (runMain (pureHash f) (pureHash g) m more).1
    ∧ exitCode (runMain (pureHash f) (pureHash g) m
        (⟨nm, OpenRes.ok (cs.map cleanEv ++ (⟨d, true, b⟩ : ReadEv) :: rest)⟩ :: more)).2.2 = 1 := by
  have hm5 : m ≠ 5 := by rcases hm with h | h | h | h <;> omega
  have h1 : runInput (pureHash f) (pureHash g) m nm
      (cs.map cleanEv ++ (⟨d, true, b⟩ : ReadEv) :: rest) =
      ([], cs.map (fun c => rollingLine c.length) ++ [nm], true) := by
    simp only [runInput]
    rw [freadLoop_fault f g m hm5 nm d hd b rest cs 0 hne]
    rfl
  refine ⟨h1, ?_, ?_⟩
  · simp only [runMain]
    rw [h1]
    rfl
  · simp only [runMain]
    rw [h1]
    rfl

/-- Claim C4 (counterexample): a ReadError on a read that returns zero
bytes escapes detection — `while ((i = fread(...)))` exits before the
`ferror` check runs — so the digest of the bytes read so far (here none:
digest 0) IS printed and the run's error status stays success, even
though the stream reported a fault. -/
theorem read_error_zero_byte_undetected :
    runMain (pureHash sumHash) (pureHash sumHash) 0
        [⟨"f", OpenRes.ok [⟨[], true, false⟩]⟩] = ([OutRec.bare 0], [], false)
    ∧ ([(⟨[], true, false⟩ : ReadEv)].any (fun ev => ev.err)) = true := by
  constructor
  · rfl
  · rfl

/-- Claim C5: whole-file mode (and BinaryStyle mode) on an empty input is
not an error: `fread` immediately returns 0, the loop body never runs,
and exactly one record is emitted carrying the initial digest 0, which —
given that the primitive's defined digest of zero-length data from seed 0
is 0 (as `jody_block_hash` returns with `*hash` untouched for
`count == 0`) — equals the primitive's digest of the empty input. -/
theorem empty_input_digest (f g : List Nat → Nat → Nat) (nm : String)
    (h0 : f [] 0 = 0) :
    runInput (pureHash f) (pureHash g) 0 nm (fileTrace []) =
      ([OutRec.bare (f [] 0)], [], false)
    ∧ runInput (pureHash f) (pureHash g) 1 nm (fileTrace []) =
      ([OutRec.named (f [] 0) true nm], [], false) := by
  constructor
  · rw [h0]
    rfl
  · rw [h0]
    rfl

/-- Claim C6 (code evaluated at the failing input): a read error detected
in the chunked `fread` loop prints ONLY the bare input name on the
diagnostic stream — `ERR(wname, name)` without any prefix — not
`error reading file: <name>` as the claim states. -/
theorem fread_read_error_bare_name :
    runInput (pureHash sumHash) (pureHash sumHash) 0 "data.bin"
        [⟨[1, 2], true, false⟩] = ([], ["data.bin"], true) := by
  rfl

/-- Claim C8: in Rolling mode (`-r`) the digest is reset to zero exactly
once, at the start of the input (the seed 0 below), and never between
chunks: each chunk's hash call is seeded with the previous chunk's
digest, so the single emitted record carries the left fold of the rolling
primitive over the chunks in stream order — a function of the entire
input's byte stream fed in chunk order. -/
theorem rolling_digest_fold (f g : List Nat → Nat → Nat) (nm : String)
    (cs : List (List Nat)) (hne : ∀ c ∈ cs, c ≠ []) :
    runInput (pureHash f) (pureHash g) 6 nm (cs.map cleanEv) =
      ([OutRec.bare (chunkFold g cs 0)],
        cs.map (fun c => rollingLine c.length), false) := by
  have := runInput_clean f g 6 (by omega) nm cs hne
  simpa using this

/-- Claim C10: in every fread-based mode (Whole-file, BinaryStyle,
Per-name, Rolling — i.e. not Line, Line-with-echo or SubBlock), the
non-benchmarked build writes `doing a rolling hash of <n> bytes` to the
diagnostic stream once per chunk read, with `<n>` the chunk's byte count,
regardless of whether Rolling mode is selected. -/
theorem chunk_message_every_read (f g : List Nat → Nat → Nat) (m : Nat)
    (hm : m = 0 ∨ m = 1 ∨ m = 4 ∨ m = 6) (nm : String) (cs : List (List Nat))
    (hne : ∀ c ∈ cs, c ≠ []) :
    (runInput (pureHash f) (pureHash g) m nm (cs.map cleanEv)).2.1 =
      cs.map (fun c => rollingLine c.length) := by
  have hm5 : m ≠ 5 := by rcases hm with h | h | h | h <;> omega
  rw [runInput_clean f g m hm5 nm cs hne]

/-- Claim C7 (amended): with a primitive that never fails, the process
exit code is 0 if and only if every input argument opened successfully
and no input's read loop detected a fault (`ferror` after a read that
returned at least one byte to the running loop).  Concretely, for two
input arguments where the first cannot be opened and the second is a
fault-free file, the primary output contains exactly one digest line (for
the second input), the diagnostic stream carries the single
`error: cannot open:` message (followed by the per-chunk progress lines),
and the exit status is failure. -/
theorem exit_code_iff_inputs_ok (f g : List Nat → Nat → Nat) (m : Nat)
    (hm2 : m ≠ 2) (hm3 : m ≠ 3) (inputs : List InputArg) (n1 n2 : String)
    (bs : List Nat) :
    (exitCode (runMain (pureHash f) (pureHash g) m inputs).2.2 = 0 ↔
      ∀ inp ∈ inputs, inputOk inp = true)
    ∧ runMain (pureHash f) (pureHash g) 0
        [⟨n1, OpenRes.fail⟩, ⟨n2, OpenRes.ok (fileTrace bs)⟩] =
      ([OutRec.bare (chunkFold f (chunksOf 32768 bs) 0)],
        ("error: cannot open: " ++ n1) ::
          (chunksOf 32768 bs).map (fun c => rollingLine c.length), true)
    ∧ exitCode (runMain (pureHash f) (pureHash g) 0
        [⟨n1, OpenRes.fail⟩, ⟨n2, OpenRes.ok (fileTrace bs)⟩]).2.2 = 1 := by
  have hscenario : runMain (pureHash f) (pureHash g) 0
      [⟨n1, OpenRes.fail⟩, ⟨n2, OpenRes.ok (fileTrace bs)⟩] =
      ([OutRec.bare (chunkFold f (chunksOf 32768 bs) 0)],
        ("error: cannot open: " ++ n1) ::
          (chunksOf 32768 bs).map (fun c => rollingLine c.length), true) := by
    have hne : ∀ c ∈ chunksOf 32768 bs, c ≠ [] :=
      chunksOf_ne_nil 32768 (by omega) bs.length bs (Nat.le_refl _)
    have h2 : runInput (pureHash f) (pureHash g) 0 n2 (fileTrace bs) =
        ([OutRec.bare (chunkFold f (chunksOf 32768 bs) 0)],
          (chunksOf 32768 bs).map (fun c => rollingLine c.length), false) := by
      have := runInput_clean f g 0 (by omega) n2 (chunksOf 32768 bs) hne
      simpa [fileTrace] using this
    simp only [runMain]
    rw [h2]
    simp
  refine ⟨?_, hscenario, ?_⟩
  · have hflag := runMain_flag f g m inputs
    unfold exitCode
    rw [hflag]
    by_cases ha : inputs.any (fun i => !(inputOk i)) = true
    · rw [if_pos ha]
      constructor
      · intro h
        omega
      · intro hall
        exfalso
        rcases List.any_eq_true.mp ha with ⟨x, hx, hpx⟩
        rw [hall x hx] at hpx
        simp at hpx
    · rw [if_neg ha]
      rw [Bool.not_eq_true] at ha
      rw [List.any_eq_false] at ha
      constructor
      · intro _ inp hinp
        have := ha inp hinp
        simpa using this
      · intro _
        rfl
  · rw [hscenario]
    rfl

/-- Claim C7 (counterexample): a stream fault on a read returning zero
bytes leaves the sticky `error` variable untouched — the input did not
succeed (its stream reported a fault), yet the partial digest is printed
and the process exit code is 0. -/
theorem exit_zero_despite_fault :
    exitCode (runMain (pureHash sumHash) (pureHash sumHash) 0
        [⟨"g", OpenRes.ok [⟨[104, 105], false, false⟩, ⟨[], true, false⟩]⟩]).2.2 = 0
    ∧ (runMain (pureHash sumHash) (pureHash sumHash) 0
        [⟨"g", OpenRes.ok [⟨[104, 105], false, false⟩, ⟨[], true, false⟩]⟩]).1 =
      [OutRec.bare 209]
    ∧ ([(⟨[104, 105], false, false⟩ : ReadEv), ⟨[], true, false⟩].any
        (fun ev => ev.err)) = true := by
  refine ⟨rfl, rfl, rfl⟩

/-- Witness for `line_crlf_nul_padding` at the spec's own example line
`"abc"`. -/
theorem line_crlf_nul_padding_witness :
    runLineInput (pureHash specHash) 2 "-" ([97, 98, 99] ++ [13, 10]) =
      ([lineRec 2 (specHash ([97, 98, 99] ++ [0]) 0) [97, 98, 99]], [], false)
    ∧ runLineInput (pureHash specHash) 2 "-" ([97, 98, 99] ++ [10]) =
      ([lineRec 2 (specHash [97, 98, 99] 0) [97, 98, 99]], [], false) :=
  line_crlf_nul_padding specHash 2 (Or.inl rfl) "-" [97, 98, 99]
    (by decide) (by decide) (by decide) (by decide) (by decide)

/-- Witness for `line_final_unterminated` at the final line `"abc"` and
the one-byte final line `"x"`. -/
theorem line_final_unterminated_witness :
    runLineInput (pureHash sumHash) 2 "-" [97, 98, 99] =
      ([lineRec 2 (sumHash ([97, 98, 99].take ([97, 98, 99].length - 1)) 0)
        ([97, 98, 99].take ([97, 98, 99].length - 1))], [], false)
    ∧ runLineInput (pureHash sumHash) 2 "-" [120] = ([], [], false) :=
  line_final_unterminated sumHash 2 (Or.inl rfl) "-" [97, 98, 99] 120
    (by decide) (by decide) (by decide) (by decide) (by decide)

/-- Witness for `subblock_partition` at an empty file (`k = 0`) and a
one-byte file (`q = 0`, `r = 1`). -/
theorem subblock_partition_witness :
    runInput (pureHash sumHash) (pureHash sumHash) 5 "-" (fileTrace []) =
      (((chunksOf 4096 ([] : List Nat)).map (fun sb => OutRec.bare (sumHash sb 0))) ++
        [OutRec.blank], [], false)
    ∧ (chunksOf 4096 ([] : List Nat)).length = 0
    ∧ (∀ j, j < 0 →
        (chunksOf 4096 ([] : List Nat)).getD j [] = (([] : List Nat).drop (4096 * j)).take 4096)
    ∧ runInput (pureHash sumHash) (pureHash sumHash) 5 "-" (fileTrace [42]) =
      (((chunksOf 4096 [42]).map (fun sb => OutRec.bare (sumHash sb 0))) ++
        [OutRec.blank], [], false)
    ∧ (chunksOf 4096 [42]).length = 0 + 1
    ∧ (chunksOf 4096 [42]).getD 0 [] = [42].drop (4096 * 0)
    ∧ ([42].drop (4096 * 0)).length = 1 :=
  subblock_partition sumHash sumHash "-" [] [42] 0 0 1
    (by decide) (by decide) (by decide) (by decide)

/-- Witness for `read_error_detected_abandons`: whole-file mode, one
clean chunk then a detected fault, followed by one further input. -/
theorem read_error_detected_abandons_witness :
    runInput (pureHash sumHash) (pureHash sumHash) 0 "a"
        ([[7]].map cleanEv ++ (⟨[8], true, false⟩ : ReadEv) :: []) =
      ([], [[7]].map (fun c => rollingLine c.length) ++ ["a"], true)
    ∧ (runMain (pureHash sumHash) (pureHash sumHash) 0
        [⟨"a", OpenRes.ok ([[7]].map cleanEv ++ (⟨[8], true, false⟩ : ReadEv) :: [])⟩,
          ⟨"b", OpenRes.ok []⟩]).1 =
      (runMain (pureHash sumHash) (pureHash sumHash) 0 [⟨"b", OpenRes.ok []⟩]).1
    ∧ exitCode (runMain (pureHash sumHash) (pureHash sumHash) 0
        [⟨"a", OpenRes.ok ([[7]].map cleanEv ++ (⟨[8], true, false⟩ : ReadEv) :: [])⟩,
          ⟨"b", OpenRes.ok []⟩]).2.2 = 1 :=
  read_error_detected_abandons sumHash sumHash 0 (Or.inl rfl) "a" [[7]]
    (by decide) [8] (by decide) false [] [⟨"b", OpenRes.ok []⟩]

/-- Witness for `empty_input_digest` with the summing primitive, whose
empty-input digest from seed 0 is 0. -/
theorem empty_input_digest_witness :
    runInput (pureHash sumHash) (pureHash sumHash) 0 "-" (fileTrace []) =
      ([OutRec.bare (sumHash [] 0)], [], false)
    ∧ runInput (pureHash sumHash) (pureHash sumHash) 1 "-" (fileTrace []) =
      ([OutRec.named (sumHash [] 0) true "-"], [], false) :=
  empty_input_digest sumHash sumHash "-" (by decide)

/-- Witness for `exit_code_iff_inputs_ok`: one unopenable input for the
equivalence, and the two-argument scenario on the bytes `"hi"`. -/
theorem exit_code_iff_inputs_ok_witness :
    (exitCode (runMain (pureHash sumHash) (pureHash sumHash) 0
        [⟨"x", OpenRes.fail⟩]).2.2 = 0 ↔
      ∀ inp ∈ [(⟨"x", OpenRes.fail⟩ : InputArg)], inputOk inp = true)
    ∧ runMain (pureHash sumHash) (pureHash sumHash) 0
        [⟨"missing", OpenRes.fail⟩, ⟨"data", OpenRes.ok (fileTrace [104, 105])⟩] =
      ([OutRec.bare (chunkFold sumHash (chunksOf 32768 [104, 105]) 0)],
        ("error: cannot open: " ++ "missing") ::
          (chunksOf 32768 [104, 105]).map (fun c => rollingLine c.length), true)
    ∧ exitCode (runMain (pureHash sumHash) (pureHash sumHash) 0
        [⟨"missing", OpenRes.fail⟩, ⟨"data", OpenRes.ok (fileTrace [104, 105])⟩]).2.2 = 1 :=
  exit_code_iff_inputs_ok sumHash sumHash 0 (by decide) (by decide)
    [⟨"x", OpenRes.fail⟩] "missing" "data" [104, 105]

/-- Witness for `rolling_digest_fold` on two one-byte chunks. -/
theorem rolling_digest_fold_witness :
    runInput (pureHash sumHash) (pureHash sumHash) 6 "-" ([[1], [2]].map cleanEv) =
      ([OutRec.bare (chunkFold sumHash [[1], [2]] 0)],
        [[1], [2]].map (fun c => rollingLine c.length), false) :=
  rolling_digest_fold sumHash sumHash "-" [[1], [2]] (by decide)

/-- Witness for `chunk_message_every_read` in plain whole-file mode (no
`-r` flag), one two-byte chunk. -/
theorem chunk_message_every_read_witness :
    (runInput (pureHash sumHash) (pureHash sumHash) 0 "-" ([[5, 6]].map cleanEv)).2.1 =
      [[5, 6]].map (fun c => rollingLine c.length) :=
  chunk_message_every_read sumHash sumHash 0 (Or.inl rfl) "-" [[5, 6]] (by decide)
